import Mathlib

/-!
Verification of the CamPorter media import engine against its
natural-language specification.

The frontend component (the Svelte file shipped in the repository) is
embedded shallowly below: the progress event consumer, the duplicate
check caller, and the thumbnail cache / generation queue.  The Rust
backend commands (duplicate oracle, transfer pipeline, name-collision
copy) are not part of the shipped sources; where a claim depends on
them they are modelled from the specification text, and each such
definition says so in its doc comment.
-/

namespace CamPorter

/-! ## JavaScript-like numbers for the progress consumer

The progress listener computes `(copied / total) * 100` with JavaScript
number semantics.  Division by zero and failed `parseInt` calls produce
`Infinity`, `-Infinity` or `NaN`; rationals model the exact values the
listener computes for finite operands. -/

inductive JsNum where
  | num (q : ℚ)
  | nan
  | inf
  | ninf
deriving DecidableEq, Repr

/-- JavaScript division on the values that can appear in the listener. -/
def jsDiv : JsNum → JsNum → JsNum
  | .num a, .num b =>
      if b = 0 then (if a = 0 then .nan else if 0 < a then .inf else .ninf)
      else .num (a / b)
  | .nan, _ => .nan
  | _, .nan => .nan
  | .inf, .num b => if b < 0 then .ninf else .inf
  | .ninf, .num b => if b < 0 then .inf else .ninf
  | .num _, .inf => .num 0
  | .num _, .ninf => .num 0
  | .inf, .inf => .nan
  | .inf, .ninf => .nan
  | .ninf, .inf => .nan
  | .ninf, .ninf => .nan

/-- JavaScript multiplication by the positive constant 100. -/
def jsMul100 : JsNum → JsNum
  | .num q => .num (q * 100)
  | .nan => .nan
  | .inf => .inf
  | .ninf => .ninf

/-- The JavaScript comparison `x > 0`; false on `NaN`. -/
def jsGtZero : JsNum → Bool
  | .num q => decide (0 < q)
  | .inf => true
  | .nan => false
  | .ninf => false

/-- Numeric value of a digit string, most significant digit first. -/
def digitsVal (cs : List Char) : ℕ :=
  cs.foldl (fun acc c => 10 * acc + (c.toNat - '0'.toNat)) 0

/-- Digit-run parsing used by `jsParseInt` after sign handling. -/
def jsParseIntCore (cs : List Char) : JsNum :=
  let ds := cs.takeWhile (fun c => c.isDigit)
  if ds.isEmpty then .nan else .num (digitsVal ds)

/-- Sign handling of `parseInt` after leading spaces are removed. -/
def jsParseIntSigned : List Char → JsNum
  | [] => .nan
  | c :: rest =>
      if c = '-' then
        match jsParseIntCore rest with
        | .num q => .num (-q)
        | x => x
      else if c = '+' then jsParseIntCore rest
      else jsParseIntCore (c :: rest)

/-- JavaScript `parseInt` on the decimal strings the event channel
carries: skip leading spaces, take an optional sign and then the
longest leading digit run; `NaN` when no digit is found. -/
def jsParseInt (cs : List Char) : JsNum :=
  jsParseIntSigned (cs.dropWhile (fun c => c = ' '))

/-- `String.prototype.split(':')` on the character list of a message. -/
def splitOnColon : List Char → List (List Char)
  | [] => [[]]
  | c :: cs =>
      if c = ':' then [] :: splitOnColon cs
      else
        match splitOnColon cs with
        | [] => [[c]]
        | h :: t => (c :: h) :: t

/-- `String.prototype.startsWith` on character lists: does `cs` start
with `pre`? -/
def matchesHead : List Char → List Char → Bool
  | [], _ => true
  | _ :: _, [] => false
  | p :: ps, c :: cs => c = p && matchesHead ps cs

def startsWithChars (cs pat : List Char) : Bool :=
  matchesHead pat cs

/-- The two structured tags of the progress event channel, with the
trailing colon the listener tests for. -/
def bytesTag : List Char := "PROGRESS_BYTES:".data

def countTag : List Char := "PROGRESS:".data

/-- The state the import-progress listener mutates: the numeric
progress percentage and the free-form status line. -/
structure UIState where
  progressPercent : JsNum
  progress : String
deriving DecidableEq, Repr

/-- The `import-progress` listener of `importSelectedFiles`: structured
`PROGRESS_BYTES:copied:total` messages update the percentage through a
guarded division, structured `PROGRESS:done:total` messages update it
through an unguarded division, and any message that starts with
neither tag replaces the status line. -/
def handleMessage (st : UIState) (message : String) : UIState :=
  let cs := message.data
  if startsWithChars cs bytesTag then
    let parts := splitOnColon cs
    if parts.length = 3 then
      let copied := jsParseInt (parts.getD 1 [])
      let total := jsParseInt (parts.getD 2 [])
      { st with progressPercent :=
          if jsGtZero total then jsMul100 (jsDiv copied total) else .num 0 }
    else st
  else if startsWithChars cs countTag then
    let parts := splitOnColon cs
    if parts.length = 3 then
      { st with progressPercent :=
          jsMul100 (jsDiv (jsParseInt (parts.getD 1 []))
            (jsParseInt (parts.getD 2 []))) }
    else st
  else { st with progress := message }

/-- A nonempty decimal-digit field of a structured progress message. -/
def numericField (cs : List Char) : Bool :=
  !cs.isEmpty && cs.all (fun c => c.isDigit)

/-- A message that is exactly `PROGRESS_BYTES:a:b` with numeric `a`
and `b`. -/
def wellFormedBytesMsg (m : String) : Bool :=
  match splitOnColon m.data with
  | [t, a, b] => t = "PROGRESS_BYTES".data && numericField a && numericField b
  | _ => false

/-- A message that is exactly `PROGRESS:a:b` with numeric `a` and
`b`. -/
def wellFormedCountMsg (m : String) : Bool :=
  match splitOnColon m.data with
  | [t, a, b] => t = "PROGRESS".data && numericField a && numericField b
  | _ => false

/-- Percentage a well-formed `PROGRESS_BYTES` message denotes: zero
when the total is zero, otherwise the exact byte fraction times 100. -/
def byteProgressOf (m : String) : JsNum :=
  match splitOnColon m.data with
  | [_, a, b] =>
      if digitsVal b = 0 then .num 0
      else .num ((digitsVal a : ℚ) / (digitsVal b : ℚ) * 100)
  | _ => .num 0

/-- Percentage a well-formed `PROGRESS` message denotes when its total
field is positive. -/
def countProgressOf (m : String) : JsNum :=
  match splitOnColon m.data with
  | [_, a, b] => .num ((digitsVal a : ℚ) / (digitsVal b : ℚ) * 100)
  | _ => .num 0

/-- The total-files field of a structured message, for stating when
the unguarded division of the `PROGRESS` branch is safe. -/
def countTotalOf (m : String) : ℕ :=
  match splitOnColon m.data with
  | [_, _, b] => digitsVal b
  | _ => 0

/-- Inverse of `splitOnColon`: interleave the pieces with colons. -/
def joinColon : List (List Char) → List Char
  | [] => []
  | [x] => x
  | x :: xs => x ++ ':' :: joinColon xs

theorem splitOnColon_ne_nil (cs : List Char) : splitOnColon cs ≠ [] := by
  induction cs with
  | nil => simp [splitOnColon]
  | cons c cs ih =>
      by_cases hc : c = ':'
      · simp [splitOnColon, hc]
      · simp only [splitOnColon, if_neg hc]
        cases h : splitOnColon cs <;> simp

theorem joinColon_splitOnColon (cs : List Char) :
    joinColon (splitOnColon cs) = cs := by
  induction cs with
  | nil => rfl
  | cons c cs ih =>
      by_cases hc : c = ':'
      · subst hc
        simp only [splitOnColon, if_pos rfl]
        cases h : splitOnColon cs with
        | nil => exact absurd h (splitOnColon_ne_nil cs)
        | cons h1 t1 =>
            rw [h] at ih
            simpa [joinColon] using ih
      · simp only [splitOnColon, if_neg hc]
        cases h : splitOnColon cs with
        | nil => exact absurd h (splitOnColon_ne_nil cs)
        | cons h1 t1 =>
            rw [h] at ih
            cases t1 with
            | nil => simpa [joinColon] using congrArg (c :: ·) ih
            | cons h2 t2 => simpa [joinColon] using congrArg (c :: ·) ih

theorem data_eq_of_split3 {m : String} {t a b : List Char}
    (hm : splitOnColon m.data = [t, a, b]) :
    m.data = t ++ ':' :: (a ++ ':' :: b) := by
  have h := joinColon_splitOnColon m.data
  rw [hm] at h
  simpa [joinColon] using h.symm

theorem takeWhile_isDigit_of_all {l : List Char}
    (h : l.all (fun c => c.isDigit) = true) :
    l.takeWhile (fun c => c.isDigit) = l := by
  induction l with
  | nil => rfl
  | cons c cs ih =>
      simp only [List.all_cons, Bool.and_eq_true] at h
      simp [List.takeWhile_cons, h.1, ih h.2]

theorem jsParseInt_numeric {l : List Char} (h : numericField l = true) :
    jsParseInt l = .num (digitsVal l) := by
  simp only [numericField, Bool.and_eq_true, Bool.not_eq_true',
    List.isEmpty_eq_false_iff_exists_mem] at h
  obtain ⟨⟨x, hx⟩, hall⟩ := h
  cases l with
  | nil => cases hx
  | cons c cs =>
      have hcd : c.isDigit = true := by
        have := List.all_eq_true.mp hall c (by simp)
        simpa using this
      have hcs : c ≠ ' ' := by
        intro hr
        rw [hr] at hcd
        cases hcd
      have hminus : c ≠ '-' := by
        intro hr
        rw [hr] at hcd
        cases hcd
      have hplus : c ≠ '+' := by
        intro hr
        rw [hr] at hcd
        cases hcd
      have hdrop : (c :: cs).dropWhile (fun x => x = ' ') = c :: cs :=
        List.dropWhile_cons_of_neg (by simpa using hcs)
      rw [jsParseInt, hdrop, jsParseIntSigned, if_neg hminus, if_neg hplus,
        jsParseIntCore]
      rw [takeWhile_isDigit_of_all hall]
      simp

theorem handleMessage_bytes_eq {st : UIState} {m : String} {a b : List Char}
    (hm : splitOnColon m.data = ["PROGRESS_BYTES".data, a, b]) :
    handleMessage st m =
      { st with progressPercent :=
          if jsGtZero (jsParseInt b) then
            jsMul100 (jsDiv (jsParseInt a) (jsParseInt b))
          else .num 0 } := by
  have hd := data_eq_of_split3 hm
  have hsw : startsWithChars m.data bytesTag = true := by rw [hd]; rfl
  simp [handleMessage, hsw, hm]

theorem handleMessage_count_eq {st : UIState} {m : String} {a b : List Char}
    (hm : splitOnColon m.data = ["PROGRESS".data, a, b]) :
    handleMessage st m =
      { st with progressPercent :=
          jsMul100 (jsDiv (jsParseInt a) (jsParseInt b)) } := by
  have hd := data_eq_of_split3 hm
  have hsb : startsWithChars m.data bytesTag = false := by rw [hd]; rfl
  have hsc : startsWithChars m.data countTag = true := by rw [hd]; rfl
  simp [handleMessage, hsb, hsc, hm]

/-- Claim C10: in the `PROGRESS_BYTES` branch the division is guarded:
a parsed total of zero yields a progress percentage of exactly zero,
and a positive total yields exactly `(copied / total) * 100` (computed
here over exact rationals). -/
theorem progressBytes_division_guarded (st : UIState) (m : String)
    (a b : List Char)
    (hm : splitOnColon m.data = ["PROGRESS_BYTES".data, a, b])
    (ha : numericField a = true) (hb : numericField b = true) :
    (digitsVal b = 0 → (handleMessage st m).progressPercent = .num 0) ∧
    (0 < digitsVal b →
      (handleMessage st m).progressPercent =
        .num ((digitsVal a : ℚ) / (digitsVal b : ℚ) * 100)) := by
  rw [handleMessage_bytes_eq hm, jsParseInt_numeric ha, jsParseInt_numeric hb]
  constructor
  · intro hz
    rw [hz]
    simp [jsGtZero]
  · intro hpos
    have hq : (0 : ℚ) < (digitsVal b : ℚ) := by exact_mod_cast hpos
    have hgt : jsGtZero (.num (digitsVal b : ℚ)) = true := by
      simp [jsGtZero, hq]
    rw [hgt]
    simp only [if_true]
    rw [jsDiv]
    simp [ne_of_gt hq, jsMul100]

/-- Witness for C10 at the concrete messages `PROGRESS_BYTES:5:0` and
`PROGRESS_BYTES:50:100`. -/
theorem progressBytes_division_guarded_witness :
    (handleMessage ⟨.num 0, ""⟩ "PROGRESS_BYTES:5:0").progressPercent
        = .num 0 ∧
    (handleMessage ⟨.num 0, ""⟩ "PROGRESS_BYTES:50:100").progressPercent
        = .num ((digitsVal "50".data : ℚ) / (digitsVal "100".data : ℚ) * 100) :=
  ⟨(progressBytes_division_guarded _ "PROGRESS_BYTES:5:0" "5".data "0".data
      (by decide) (by decide) (by decide)).1 (by decide),
   (progressBytes_division_guarded _ "PROGRESS_BYTES:50:100" "50".data
      "100".data (by decide) (by decide) (by decide)).2 (by decide)⟩

/-- Claim C3 exactly as stated: every well-formed structured message
is parsed into the corresponding progress update, and every message
that is not a well-formed structured message is treated as a plain
status line. -/
def c3AsStated : Prop :=
  ∀ (st : UIState) (m : String),
    (wellFormedBytesMsg m = true →
        handleMessage st m = { st with progressPercent := byteProgressOf m }) ∧
    (wellFormedCountMsg m = true → countTotalOf m ≠ 0 →
        handleMessage st m = { st with progressPercent := countProgressOf m }) ∧
    (wellFormedBytesMsg m = false → wellFormedCountMsg m = false →
        (handleMessage st m).progress = m)

/-- Claim C3 is refuted by the message `PROGRESS_BYTES:1:2:3`: it is
not well-formed in either structured shape, yet the listener ignores
it entirely instead of treating it as a status line. -/
theorem c3AsStated_false : ¬ c3AsStated := by
  intro h
  have h3 := (h ⟨.num 0, ""⟩ "PROGRESS_BYTES:1:2:3").2.2 (by decide) (by decide)
  rw [show handleMessage ⟨.num 0, ""⟩ "PROGRESS_BYTES:1:2:3"
        = ⟨.num 0, ""⟩ from by decide] at h3
  exact absurd h3 (by decide)

/-- Claim C3 as amended: well-formed structured messages are parsed as
claimed; a message starting with neither structured tag is a status
line; but a message that starts with a structured tag and does not
split into exactly three colon-separated fields is silently ignored
(the listener state is left unchanged), not shown as status text.  The
listener is a total function, so no message makes it fail. -/
theorem handleMessage_classification (st : UIState) (m : String) :
    (wellFormedBytesMsg m = true →
        handleMessage st m = { st with progressPercent := byteProgressOf m }) ∧
    (wellFormedCountMsg m = true → countTotalOf m ≠ 0 →
        handleMessage st m = { st with progressPercent := countProgressOf m }) ∧
    (startsWithChars m.data bytesTag = false →
      startsWithChars m.data countTag = false →
        handleMessage st m = { st with progress := m }) ∧
    (startsWithChars m.data bytesTag = true →
      (splitOnColon m.data).length ≠ 3 → handleMessage st m = st) ∧
    (startsWithChars m.data bytesTag = false →
      startsWithChars m.data countTag = true →
      (splitOnColon m.data).length ≠ 3 → handleMessage st m = st) := by
  refine ⟨?_, ?_, ?_, ?_, ?_⟩
  · intro hw
    rw [wellFormedBytesMsg] at hw
    cases hs : splitOnColon m.data with
    | nil => exact absurd hs (splitOnColon_ne_nil m.data)
    | cons t rest =>
        rw [hs] at hw
        match t, rest, hw with
        | t, [a, b], hw =>
          simp only [Bool.and_eq_true, decide_eq_true_eq] at hw
          obtain ⟨⟨ht, ha⟩, hb⟩ := hw
          subst ht
          rw [handleMessage_bytes_eq hs, jsParseInt_numeric ha,
            jsParseInt_numeric hb]
          simp only [byteProgressOf, hs]
          by_cases hz : digitsVal b = 0
          · rw [if_pos hz, hz]
            simp [jsGtZero]
          · have hpos : 0 < digitsVal b := Nat.pos_of_ne_zero hz
            have hq : (0 : ℚ) < (digitsVal b : ℚ) := by exact_mod_cast hpos
            have hgt : jsGtZero (.num (digitsVal b : ℚ)) = true := by
              simp [jsGtZero, hq]
            rw [hgt]
            simp only [if_true, if_neg hz]
            rw [jsDiv]
            simp [ne_of_gt hq, jsMul100]
  · intro hw hz
    rw [wellFormedCountMsg] at hw
    cases hs : splitOnColon m.data with
    | nil => exact absurd hs (splitOnColon_ne_nil m.data)
    | cons t rest =>
        rw [hs] at hw
        match t, rest, hw with
        | t, [a, b], hw =>
          simp only [Bool.and_eq_true, decide_eq_true_eq] at hw
          obtain ⟨⟨ht, ha⟩, hb⟩ := hw
          subst ht
          rw [countTotalOf, hs] at hz
          have hq : (0 : ℚ) < (digitsVal b : ℚ) := by
            exact_mod_cast Nat.pos_of_ne_zero hz
          rw [handleMessage_count_eq hs, jsParseInt_numeric ha,
            jsParseInt_numeric hb]
          rw [countProgressOf, hs]
          rw [jsDiv]
          simp [ne_of_gt hq, jsMul100]
  · intro hb hc
    simp [handleMessage, hb, hc]
  · intro hb hlen
    simp [handleMessage, hb, hlen]
  · intro hb hc hlen
    simp [handleMessage, hb, hc, hlen]

/-- Witness for the amended C3 at four concrete messages, one per
classification case. -/
theorem handleMessage_classification_witness :
    handleMessage ⟨.num 0, ""⟩ "PROGRESS_BYTES:5:0"
        = { progressPercent := byteProgressOf "PROGRESS_BYTES:5:0",
            progress := "" } ∧
    handleMessage ⟨.num 0, ""⟩ "PROGRESS:2:4"
        = { progressPercent := countProgressOf "PROGRESS:2:4",
            progress := "" } ∧
    handleMessage ⟨.num 0, ""⟩ "Import completed successfully"
        = { progressPercent := .num 0,
            progress := "Import completed successfully" } ∧
    handleMessage ⟨.num 0, ""⟩ "PROGRESS_BYTES:1:2:3" = ⟨.num 0, ""⟩ ∧
    handleMessage ⟨.num 0, ""⟩ "PROGRESS:1:2:3:4" = ⟨.num 0, ""⟩ :=
  ⟨(handleMessage_classification _ "PROGRESS_BYTES:5:0").1 (by decide),
   (handleMessage_classification _ "PROGRESS:2:4").2.1 (by decide) (by decide),
   (handleMessage_classification _ "Import completed successfully").2.2.1
     (by decide) (by decide),
   (handleMessage_classification _ "PROGRESS_BYTES:1:2:3").2.2.2.1
     (by decide) (by decide),
   (handleMessage_classification _ "PROGRESS:1:2:3:4").2.2.2.2
     (by decide) (by decide) (by decide)⟩

/-! ## Association lists

The frontend keeps its caches in plain JavaScript objects; assignment
replaces the value of an existing key and otherwise adds the key.  The
destination directory of the spec-modelled backend is keyed the same
way. -/

def alookup {κ α : Type} [DecidableEq κ] : List (κ × α) → κ → Option α
  | [], _ => none
  | (k, v) :: t, key => if k = key then some v else alookup t key

def aset {κ α : Type} [DecidableEq κ] : List (κ × α) → κ → α → List (κ × α)
  | [], key, v => [(key, v)]
  | (k, w) :: t, key, v =>
      if k = key then (key, v) :: t else (k, w) :: aset t key v

theorem alookup_aset_self {κ α : Type} [DecidableEq κ]
    (m : List (κ × α)) (k : κ) (v : α) : alookup (aset m k v) k = some v := by
  induction m with
  | nil => simp [aset, alookup]
  | cons h t ih =>
      obtain ⟨k1, v1⟩ := h
      by_cases hk : k1 = k
      · simp [aset, hk, alookup]
      · simp [aset, hk, alookup, ih]

theorem alookup_aset_other {κ α : Type} [DecidableEq κ]
    (m : List (κ × α)) (k k2 : κ) (v : α) (hne : k2 ≠ k) :
    alookup (aset m k v) k2 = alookup m k2 := by
  induction m with
  | nil => simp [aset, alookup, Ne.symm hne]
  | cons h t ih =>
      obtain ⟨k1, v1⟩ := h
      by_cases hk : k1 = k
      · subst hk
        simp [aset, alookup, Ne.symm hne]
      · simp [aset, hk, alookup, ih]

/-! ## The Duplicate Oracle (claim C1) -/

/-- A top-level entry of the destination directory: file name and size
in bytes. -/
structure DirEntry where
  name : String
  size : ℕ
deriving DecidableEq, Repr

/-- A duplicate-check candidate: absolute source path and size in
bytes, as sent by the frontend `checkExistingFiles`. -/
structure Candidate where
  path : String
  size : ℕ
deriving DecidableEq, Repr

/-- File name of a path: the component after the last separator. -/
def baseName (path : String) : String :=
  String.mk ((path.data.reverse.takeWhile (fun c => c ≠ '/')).reverse)

/-- Modelled from the spec: the Rust command
`check_files_exist_in_destination` (the backend source is not shipped
under `src-tauri/src`).  For each candidate, the destination's top
level is searched for an entry whose name and size both match exactly;
the result is a parallel boolean sequence. -/
def checkExisting (candidates : List Candidate) (dest : List DirEntry) :
    List Bool :=
  candidates.map (fun c =>
    dest.any (fun e => e.name == baseName c.path && e.size == c.size))

/-- Claim C1: `checkExisting` returns one boolean per candidate, in
order, and flags a candidate exactly when some top-level destination
entry matches its file name and its size simultaneously; name-only or
size-only matches are never flagged. -/
theorem checkExisting_parallel_iff (candidates : List Candidate)
    (dest : List DirEntry) :
    (checkExisting candidates dest).length = candidates.length ∧
    ∀ i, i < candidates.length →
      ((checkExisting candidates dest).getD i false = true ↔
        ∃ e ∈ dest,
          e.name = baseName ((candidates.getD i ⟨"", 0⟩).path) ∧
          e.size = (candidates.getD i ⟨"", 0⟩).size) := by
  constructor
  · simp [checkExisting]
  · intro i hi
    rw [checkExisting, List.getD, List.getD]
    rw [List.get?_map]
    obtain ⟨c, hc⟩ : ∃ c, candidates.get? i = some c := by
      rw [List.get?_eq_getElem?]
      exact ⟨candidates[i], List.getElem?_eq_some_iff.mpr ⟨hi, rfl⟩⟩
    rw [hc]
    simp [List.any_eq_true]

/-- Witness for C1: the spec's scenario.  The destination holds
`IMG_0001.jpg` of 2,048,000 bytes; a candidate with the same name and
size is flagged, one with the same name and a different size is not,
and one with a different name and the same size is not. -/
theorem checkExisting_parallel_iff_witness :
    ((checkExisting
        [⟨"/dcim/IMG_0001.jpg", 2048000⟩, ⟨"/dcim/IMG_0001.jpg", 17⟩,
         ⟨"/dcim/IMG_0002.jpg", 2048000⟩]
        [⟨"IMG_0001.jpg", 2048000⟩]).getD 0 false = true ↔
      ∃ e ∈ [(⟨"IMG_0001.jpg", 2048000⟩ : DirEntry)],
        e.name = baseName "/dcim/IMG_0001.jpg" ∧ e.size = 2048000) :=
  by
    have h := (checkExisting_parallel_iff
      [⟨"/dcim/IMG_0001.jpg", 2048000⟩, ⟨"/dcim/IMG_0001.jpg", 17⟩,
       ⟨"/dcim/IMG_0002.jpg", 2048000⟩]
      [⟨"IMG_0001.jpg", 2048000⟩]).2 0 (by decide)
    simpa using h

/-! ## The Transfer Pipeline (claims C2 and C4) -/

/-- Per-file outcome of a transfer task. -/
inductive FileOutcome where
  | copied
  | skippedDuplicate
  | failed (reason : String)
deriving DecidableEq, Repr

/-- Result of attempting to copy one source file, supplied by the
environment (the filesystem). -/
inductive CopyResult where
  | success
  | ioError (reason : String)
deriving DecidableEq, Repr

/-- Modelled from the spec: the per-file loop of the Rust transfer
pipeline (§4.5; the backend source is not shipped under
`src-tauri/src`).  Files are processed one at a time in the given
order; a per-file I/O failure records `failed(reason)` for that file
and the loop continues with the next file. -/
def runTransfer (files : List String) (copy : String → CopyResult) :
    List (String × FileOutcome) :=
  files.map (fun f =>
    (f, match copy f with
        | .success => .copied
        | .ioError r => .failed r))

/-- Modelled from the spec: the task-level verdict — the overall
transfer fails only when every file failed (destination-level fatal
errors are outside this model). -/
def transferFailedOverall (outcomes : List (String × FileOutcome)) : Bool :=
  !outcomes.isEmpty &&
    outcomes.all (fun o =>
      match o.2 with
      | .failed _ => true
      | _ => false)

/-- Claim C2: every file receives an outcome, in order; a file's
outcome is `failed r` exactly when its copy failed with `r`, so a
failure does not abort the remaining files; the overall transfer
fails iff every file failed; and in the 3-file scenario whose second
copy fails the outcomes are copied, failed, copied. -/
theorem runTransfer_continues_after_failure (files : List String)
    (copy : String → CopyResult) :
    (runTransfer files copy).map Prod.fst = files ∧
    (∀ i r, i < files.length →
      (((runTransfer files copy).getD i ("", .copied)).2 = .failed r ↔
        copy (files.getD i "") = .ioError r)) ∧
    (transferFailedOverall (runTransfer files copy) = true ↔
      files ≠ [] ∧ ∀ f ∈ files, ∃ r, copy f = .ioError r) ∧
    (∀ f1 f2 f3 r, copy f1 = .success → copy f2 = .ioError r →
      copy f3 = .success →
      runTransfer [f1, f2, f3] copy =
        [(f1, .copied), (f2, .failed r), (f3, .copied)]) := by
  refine ⟨?_, ?_, ?_, ?_⟩
  · simp [runTransfer, Function.comp_def]
  · intro i r hi
    rw [runTransfer, List.getD, List.getD]
    rw [List.get?_map]
    obtain ⟨f, hf⟩ : ∃ f, files.get? i = some f := by
      rw [List.get?_eq_getElem?]
      exact ⟨files[i], List.getElem?_eq_some_iff.mpr ⟨hi, rfl⟩⟩
    rw [hf]
    simp only [Option.map, Option.getD]
    cases hcf : copy f <;> simp [hcf]
  · rw [transferFailedOverall]
    simp only [Bool.and_eq_true, Bool.not_eq_true',
      List.isEmpty_eq_false_iff_exists_mem, List.all_eq_true, runTransfer]
    constructor
    · rintro ⟨⟨x, hx⟩, hall⟩
      refine ⟨(by rintro rfl; simp at hx), ?_⟩
      intro f hfm
      have := hall (f, match copy f with
        | .success => .copied
        | .ioError r => .failed r) (List.mem_map_of_mem _ hfm)
      cases hcf : copy f with
      | success => rw [hcf] at this; cases this
      | ioError r => exact ⟨r, rfl⟩
    · rintro ⟨hne, hall⟩
      obtain ⟨f, hfm⟩ := List.exists_mem_of_ne_nil files hne
      refine ⟨⟨_, List.mem_map_of_mem _ hfm⟩, ?_⟩
      intro o ho
      obtain ⟨g, hgm, rfl⟩ := List.mem_map.mp ho
      obtain ⟨r, hr⟩ := hall g hgm
      rw [hr]
  · intro f1 f2 f3 r h1 h2 h3
    simp [runTransfer, h1, h2, h3]

/-- Witness for C2: three concrete files where only the second copy
fails (a simulated permission error). -/
theorem runTransfer_continues_after_failure_witness :
    runTransfer ["a.jpg", "b.jpg", "c.jpg"]
        (fun f => if f == "b.jpg" then .ioError "permission denied"
                  else .success) =
      [("a.jpg", .copied), ("b.jpg", .failed "permission denied"),
       ("c.jpg", .copied)] :=
  (runTransfer_continues_after_failure ["a.jpg", "b.jpg", "c.jpg"]
      (fun f => if f == "b.jpg" then .ioError "permission denied"
                else .success)).2.2.2
    "a.jpg" "b.jpg" "c.jpg" "permission denied"
    (by decide) (by decide) (by decide)

/-! ## Name collisions at the destination (claim C4)

Destination file names are modelled as a base name together with a
numeric disambiguation suffix; suffix `0` is the plain name. -/

structure DestName where
  base : String
  suffix : ℕ
deriving DecidableEq, Repr

/-- Suffixes already used for a given base name at the destination. -/
def takenSuffixes (base : String) (dest : List (DestName × String)) :
    List ℕ :=
  (dest.filter (fun e => e.1.base == base)).map (fun e => e.1.suffix)

/-- A numeric suffix not yet used for this base name: one past the
largest suffix in use. -/
def freshSuffix (base : String) (dest : List (DestName × String)) : ℕ :=
  (takenSuffixes base dest).foldr max 0 + 1

/-- Modelled from the spec: the copy step of the transfer pipeline on
a name collision (§4.5; the backend source is not shipped under
`src-tauri/src`).  If the plain name is free the file is written under
it; otherwise it is written under the base name with a fresh numeric
suffix, and no existing entry is overwritten.  Returns the name
written and the new destination contents. -/
def copyNoOverwrite (srcBase content : String)
    (dest : List (DestName × String)) :
    DestName × List (DestName × String) :=
  match alookup dest ⟨srcBase, 0⟩ with
  | none => (⟨srcBase, 0⟩, (⟨srcBase, 0⟩, content) :: dest)
  | some _ =>
      let n : DestName := ⟨srcBase, freshSuffix srcBase dest⟩
      (n, (n, content) :: dest)

theorem le_foldr_max_of_mem {l : List ℕ} {x : ℕ} (hx : x ∈ l) :
    x ≤ l.foldr max 0 := by
  induction l with
  | nil => cases hx
  | cons h t ih =>
      rcases List.mem_cons.mp hx with rfl | hxt
      · exact le_max_left _ _
      · exact le_trans (ih hxt) (le_max_right _ _)

theorem suffix_mem_taken {dest : List (DestName × String)}
    {n : DestName} {v : String} (h : alookup dest n = some v) :
    n.suffix ∈ takenSuffixes n.base dest := by
  induction dest with
  | nil => cases h
  | cons e t ih =>
      rw [alookup] at h
      by_cases he : e.1 = n
      · simp [takenSuffixes, he]
      · rw [if_neg he] at h
        have := ih h
        rw [takenSuffixes] at this ⊢
        by_cases hb : e.1.base = n.base
        · simpa [hb] using Or.inr this
        · simpa [hb] using this

theorem alookup_freshSuffix (srcBase : String)
    (dest : List (DestName × String)) :
    alookup dest ⟨srcBase, freshSuffix srcBase dest⟩ = none := by
  cases h : alookup dest ⟨srcBase, freshSuffix srcBase dest⟩ with
  | none => rfl
  | some v =>
      have hmem := suffix_mem_taken h
      rw [show (⟨srcBase, freshSuffix srcBase dest⟩ : DestName).suffix
            = freshSuffix srcBase dest from rfl,
        show (⟨srcBase, freshSuffix srcBase dest⟩ : DestName).base
            = srcBase from rfl] at hmem
      have hle := le_foldr_max_of_mem hmem
      rw [freshSuffix] at hle
      omega

/-- Claim C4: when the plain name is already taken at the destination
(for instance by a same-named file of a different size, which the
duplicate check does not flag), the source file is written under a
disambiguated name: the written name carries a nonzero suffix, the
pre-existing entry keeps its content, the new entry holds the source
content under a name that did not exist before, and every other entry
is untouched. -/
theorem copyNoOverwrite_never_overwrites (srcBase content old : String)
    (dest : List (DestName × String))
    (h : alookup dest ⟨srcBase, 0⟩ = some old) :
    (copyNoOverwrite srcBase content dest).1 ≠ ⟨srcBase, 0⟩ ∧
    alookup (copyNoOverwrite srcBase content dest).2 ⟨srcBase, 0⟩
      = some old ∧
    alookup (copyNoOverwrite srcBase content dest).2
      (copyNoOverwrite srcBase content dest).1 = some content ∧
    alookup dest (copyNoOverwrite srcBase content dest).1 = none ∧
    ∀ n, n ≠ (copyNoOverwrite srcBase content dest).1 →
      alookup (copyNoOverwrite srcBase content dest).2 n
        = alookup dest n := by
  have hfresh := alookup_freshSuffix srcBase dest
  have hne : (⟨srcBase, freshSuffix srcBase dest⟩ : DestName)
      ≠ ⟨srcBase, 0⟩ := by
    intro hc
    have : freshSuffix srcBase dest = 0 := congrArg DestName.suffix hc
    rw [freshSuffix] at this
    omega
  simp only [copyNoOverwrite, h]
  refine ⟨hne, ?_, ?_, hfresh, ?_⟩
  · simp only [alookup, if_neg hne]
    exact h
  · simp [alookup]
  · intro n hn
    simp only [alookup, if_neg (Ne.symm hn)]

/-- Witness for C4: the spec's scenario — the destination already
holds an unrelated `photo.jpg`; the incoming `photo.jpg` is written as
`photo.jpg` with suffix 1 and the old entry survives unchanged. -/
theorem copyNoOverwrite_never_overwrites_witness :
    (copyNoOverwrite "photo.jpg" "new-content"
        [(⟨"photo.jpg", 0⟩, "old-500-bytes")]).1 ≠ ⟨"photo.jpg", 0⟩ ∧
    alookup (copyNoOverwrite "photo.jpg" "new-content"
        [(⟨"photo.jpg", 0⟩, "old-500-bytes")]).2 ⟨"photo.jpg", 0⟩
      = some "old-500-bytes" :=
  ⟨(copyNoOverwrite_never_overwrites "photo.jpg" "new-content"
      "old-500-bytes" [(⟨"photo.jpg", 0⟩, "old-500-bytes")] (by decide)).1,
   (copyNoOverwrite_never_overwrites "photo.jpg" "new-content"
      "old-500-bytes" [(⟨"photo.jpg", 0⟩, "old-500-bytes")] (by decide)).2.1⟩

/-! ## The thumbnail cache and generation queue (claims C5 to C9)

The component state of the frontend: `thumbnailCache` and
`thumbnailLoadingStates` are JavaScript objects, the queue is an
array, `isGeneratingThumbnails` guards the processing chain.  Two
extra fields make the asynchronous control flow explicit:
`pendingNext` counts `setTimeout(processNextThumbnail)` continuations
not yet run, and `inFlightGen` lists the paths whose
`get_file_thumbnail` invocation inside `generateSingleThumbnail` has
been issued but has not yet resolved.  `invocations` counts backend
invocations, so that "no backend work" is observable. -/

inductive ThumbState where
  | pending
  | loading
  | loaded
  | error
deriving DecidableEq, Repr

/-- One scanned media record, as the frontend receives it from
`list_media_files`. -/
structure MediaFile where
  name : String
  path : String
  size : ℕ
  modified : ℕ
  extension : String
  is_image : Bool
  is_video : Bool
deriving DecidableEq, Repr

structure ThumbSys where
  cache : List (String × String)
  states : List (String × ThumbState)
  queue : List String
  isGenerating : Bool
  pendingNext : ℕ
  inFlightGen : List String
  invocations : ℕ
deriving DecidableEq, Repr

/-- `getThumbnailState`: absent entries read as `pending` (the code's
`|| 'pending'` default). -/
def thumbStateOf (s : ThumbSys) (p : String) : ThumbState :=
  (alookup s.states p).getD .pending

/-- The JavaScript truthiness test `if (thumbnailCache[filePath])`:
false for a missing entry and for the empty string. -/
def cacheTruthy (s : ThumbSys) (p : String) : Bool :=
  match alookup s.cache p with
  | some d => d != ""
  | none => false

/-- Resolution of one backend `get_file_thumbnail` invocation. -/
inductive ThumbResult where
  | ok (payload : String)
  | err (msg : String)
deriving DecidableEq, Repr

/-- The events that drive the thumbnail subsystem: a completed scan
(`loadMediaFiles` followed by `initializeThumbnailGeneration`), a
scheduled `processNextThumbnail` continuation firing, the in-flight
generation resolving, and a direct `getThumbnail` call. -/
inductive ThumbEv where
  | scan (files : List MediaFile)
  | runNext
  | finish (r : ThumbResult)
  | request (p : String) (r : ThumbResult)
deriving DecidableEq, Repr

/-- Observable writes to the per-path state map: a wholesale reset
(`thumbnailLoadingStates = {}`) or a single-path assignment. -/
inductive WriteEv where
  | reset
  | write (p : String) (v : ThumbState)
deriving DecidableEq, Repr

/-- The paths `initializeThumbnailGeneration` enqueues: every scanned
file classified image or video. -/
def scanPaths (files : List MediaFile) : List String :=
  (files.filter (fun f => f.is_image || f.is_video)).map (fun f => f.path)

/-- The state map after initialization: every enqueued path pending. -/
def pendingMap (ps : List String) : List (String × ThumbState) :=
  ps.foldl (fun m p => aset m p .pending) []

/-- `startThumbnailGeneration`: return if a chain is already running
or the queue is empty; otherwise set the flag and run
`processNextThumbnail` synchronously up to its first `await invoke`:
the head of the queue is shifted; a truthy cache entry makes
`generateSingleThumbnail` return at once and the chain schedules the
next continuation, otherwise the path is marked `loading` and the
backend invocation becomes in-flight. -/
def startChain (s : ThumbSys) : ThumbSys × List WriteEv :=
  if s.isGenerating then (s, [])
  else
    match s.queue with
    | [] => (s, [])
    | q :: rest =>
        let s1 := { s with isGenerating := true, queue := rest }
        if cacheTruthy s1 q then
          ({ s1 with pendingNext := s1.pendingNext + 1 }, [])
        else
          ({ s1 with states := aset s1.states q .loading,
                     inFlightGen := q :: s1.inFlightGen,
                     invocations := s1.invocations + 1 },
           [WriteEv.write q .loading])

/-- The component state right after `initializeThumbnailGeneration`
cleared the cache, the state map and the queue and re-enqueued the
scanned media paths as pending. -/
def resetSys (s : ThumbSys) (files : List MediaFile) : ThumbSys :=
  { s with cache := [], states := pendingMap (scanPaths files),
           queue := scanPaths files }

/-- `initializeThumbnailGeneration` after a successful scan: clear the
cache, the state map and the queue, mark every image or video file
pending and enqueue it, then call `startThumbnailGeneration`. -/
def thumbScan (s : ThumbSys) (files : List MediaFile) :
    ThumbSys × List WriteEv :=
  ((startChain (resetSys s files)).1,
   (WriteEv.reset ::
      (scanPaths files).map (fun p => WriteEv.write p .pending))
     ++ (startChain (resetSys s files)).2)

/-- A scheduled `processNextThumbnail` continuation fires: with an
empty queue the chain stops; otherwise the head path is shifted, and
`generateSingleThumbnail` either returns at once on a truthy cache
entry (the chain then schedules the next run) or marks the path
`loading` and issues the backend invocation. -/
def thumbRunNext (s : ThumbSys) : ThumbSys × List WriteEv :=
  if s.pendingNext = 0 then (s, [])
  else
    let s0 := { s with pendingNext := s.pendingNext - 1 }
    match s0.queue with
    | [] => ({ s0 with isGenerating := false }, [])
    | q :: rest =>
        let s1 := { s0 with queue := rest }
        if cacheTruthy s1 q then
          ({ s1 with pendingNext := s1.pendingNext + 1 }, [])
        else
          ({ s1 with states := aset s1.states q .loading,
                     inFlightGen := q :: s1.inFlightGen,
                     invocations := s1.invocations + 1 },
           [WriteEv.write q .loading])

/-- The in-flight `get_file_thumbnail` invocation resolves: on success
the payload is stored and the path marked `loaded`, on failure the
path is marked `error`; either way `processNextThumbnail` resumes and
schedules the next continuation. -/
def thumbFinish (s : ThumbSys) (r : ThumbResult) : ThumbSys × List WriteEv :=
  match s.inFlightGen with
  | [] => (s, [])
  | q :: rest =>
      match r with
      | .ok payload =>
          ({ s with cache := aset s.cache q payload,
                    states := aset s.states q .loaded,
                    inFlightGen := rest,
                    pendingNext := s.pendingNext + 1 },
           [WriteEv.write q .loaded])
      | .err _ =>
          ({ s with states := aset s.states q .error,
                    inFlightGen := rest,
                    pendingNext := s.pendingNext + 1 },
           [WriteEv.write q .error])

/-- Cache-miss path of `getThumbnail`: issue the invocation and handle
its result. -/
def getThumbMissing (s : ThumbSys) (p : String) (r : ThumbResult) :
    ThumbSys × String :=
  match r with
  | .ok d => ({ s with cache := aset s.cache p d,
                       invocations := s.invocations + 1 }, d)
  | .err _ => ({ s with invocations := s.invocations + 1 }, "")

/-- `getThumbnail`: a truthy cache entry is returned as is; otherwise
the backend is invoked, a success is cached and returned, and a
failure is logged and the empty string returned.  The per-path state
map is never touched. -/
def getThumbStep (s : ThumbSys) (p : String) (r : ThumbResult) :
    ThumbSys × String :=
  match alookup s.cache p with
  | some d =>
      if d != "" then (s, d)
      else getThumbMissing s p r
  | none => getThumbMissing s p r

def thumbStep (s : ThumbSys) : ThumbEv → ThumbSys × List WriteEv
  | .scan files => thumbScan s files
  | .runNext => thumbRunNext s
  | .finish r => thumbFinish s r
  | .request p r => ((getThumbStep s p r).1, [])

/-- The component state on mount: everything empty, no chain. -/
def thumbStart : ThumbSys := ⟨[], [], [], false, 0, [], 0⟩

def thumbExec (s : ThumbSys) : List ThumbEv → ThumbSys × List WriteEv
  | [] => (s, [])
  | e :: es =>
      let r1 := thumbStep s e
      let r2 := thumbExec r1.1 es
      (r2.1, r1.2 ++ r2.2)

def thumbRun (evs : List ThumbEv) : ThumbSys × List WriteEv :=
  thumbExec thumbStart evs

def ThumbReachable (s : ThumbSys) : Prop :=
  ∃ evs, (thumbRun evs).1 = s

/-- The transitions the claimed state machine allows for one entry:
staying put, or one step along pending, loading, loaded or error. -/
def allowedMove : ThumbState → ThumbState → Bool
  | .pending, .loading => true
  | .loading, .loaded => true
  | .loading, .error => true
  | a, b => a = b

/-- Replay a write trace into a state map. -/
def applyWrites (m : List (String × ThumbState)) :
    List WriteEv → List (String × ThumbState)
  | [] => m
  | .reset :: ws => applyWrites [] ws
  | .write p v :: ws => applyWrites (aset m p v) ws

/-- Check a write trace against the claimed state machine: a reset (a
full invalidation) returns every entry to pending; any other write
must either leave the entry's current value unchanged or move it one
step along the chain. -/
def wfWrites (m : List (String × ThumbState)) : List WriteEv → Bool
  | [] => true
  | .reset :: ws => wfWrites [] ws
  | .write p v :: ws =>
      allowedMove ((alookup m p).getD .pending) v && wfWrites (aset m p v) ws

/-! ### The single-flight discipline of the generation chain -/

/-- The chain discipline the flag `isGeneratingThumbnails` enforces:
at any time there is at most one pending `processNextThumbnail`
continuation or in-flight generation in total, and none at all when no
chain is running. -/
def ChainInv (s : ThumbSys) : Prop :=
  s.pendingNext + s.inFlightGen.length ≤ 1 ∧
  (s.isGenerating = false → s.pendingNext = 0 ∧ s.inFlightGen = [])

theorem getThumbStep_skeleton (s : ThumbSys) (p : String) (r : ThumbResult) :
    (getThumbStep s p r).1.states = s.states ∧
    (getThumbStep s p r).1.queue = s.queue ∧
    (getThumbStep s p r).1.isGenerating = s.isGenerating ∧
    (getThumbStep s p r).1.pendingNext = s.pendingNext ∧
    (getThumbStep s p r).1.inFlightGen = s.inFlightGen := by
  cases h : alookup s.cache p with
  | none => cases r <;> simp [getThumbStep, h, getThumbMissing]
  | some d =>
      by_cases hd : d = ""
      · subst hd
        cases r <;> simp [getThumbStep, h, getThumbMissing]
      · simp [getThumbStep, h, hd]

theorem chainInv_startChain {s : ThumbSys} (hc : ChainInv s) :
    ChainInv (startChain s).1 := by
  obtain ⟨h1, h2⟩ := hc
  rw [startChain]
  by_cases hg : s.isGenerating = true
  · rw [if_pos hg]
    exact ⟨h1, h2⟩
  · rw [if_neg hg]
    have hgf : s.isGenerating = false := by
      cases h : s.isGenerating
      · rfl
      · exact absurd h hg
    obtain ⟨hp, hf⟩ := h2 hgf
    cases hq : s.queue with
    | nil => exact ⟨h1, h2⟩
    | cons q rest =>
        dsimp only
        by_cases hct :
            cacheTruthy { s with isGenerating := true, queue := rest } q
              = true
        · rw [if_pos hct]
          exact ⟨by simp [hp, hf], by simp⟩
        · rw [if_neg hct]
          exact ⟨by simp [hp, hf], by simp⟩

theorem chainInv_step (s : ThumbSys) (e : ThumbEv) (hc : ChainInv s) :
    ChainInv (thumbStep s e).1 := by
  obtain ⟨h1, h2⟩ := hc
  cases e with
  | scan files =>
      exact chainInv_startChain ⟨h1, h2⟩
  | runNext =>
      rw [thumbStep, thumbRunNext]
      by_cases hp : s.pendingNext = 0
      · rw [if_pos hp]
        exact ⟨h1, h2⟩
      · rw [if_neg hp]
        have hgen : s.isGenerating = true := by
          cases hg : s.isGenerating
          · exact absurd (h2 hg).1 hp
          · rfl
        have hflight : s.inFlightGen = [] := by
          cases hf : s.inFlightGen with
          | nil => rfl
          | cons a t =>
              rw [hf] at h1
              simp at h1
              omega
        have hpend : s.pendingNext = 1 := by
          rw [hflight] at h1
          simp at h1
          omega
        dsimp only
        cases hq : s.queue with
        | nil => exact ⟨by simp [hpend, hflight], by simp [hpend, hflight]⟩
        | cons q rest =>
            dsimp only
            by_cases hct : cacheTruthy { s with
                pendingNext := s.pendingNext - 1, queue := rest } q = true
            · rw [if_pos hct]
              exact ⟨by simp [hpend, hflight], by simp [hgen]⟩
            · rw [if_neg hct]
              exact ⟨by simp [hpend, hflight], by simp [hgen]⟩
  | finish r =>
      rw [thumbStep, thumbFinish]
      cases hf : s.inFlightGen with
      | nil => exact ⟨h1, h2⟩
      | cons q rest =>
          have hgen : s.isGenerating = true := by
            cases hg : s.isGenerating
            · exact absurd (h2 hg).2 (by simp [hf])
            · rfl
          have hpend : s.pendingNext = 0 := by
            rw [hf] at h1
            simp at h1
            omega
          have hrest : rest = [] := by
            rw [hf] at h1
            cases rest with
            | nil => rfl
            | cons a t =>
                exfalso
                rw [hpend] at h1
                simp at h1
          cases r with
          | ok payload =>
              exact ⟨by simp [hpend, hrest], by simp [hgen]⟩
          | err msg =>
              exact ⟨by simp [hpend, hrest], by simp [hgen]⟩
  | request p r =>
      obtain ⟨_, _, hgen, hpend, hflight⟩ := getThumbStep_skeleton s p r
      rw [thumbStep]
      exact ⟨by rw [hpend, hflight]; exact h1,
             by rw [hgen, hpend, hflight]; exact h2⟩

theorem chainInv_exec (evs : List ThumbEv) (s : ThumbSys)
    (hc : ChainInv s) : ChainInv (thumbExec s evs).1 := by
  induction evs generalizing s with
  | nil => exact hc
  | cons e es ih =>
      rw [thumbExec]
      exact ih _ (chainInv_step s e hc)

theorem chainInv_reachable {s : ThumbSys} (h : ThumbReachable s) :
    ChainInv s := by
  obtain ⟨evs, hrun⟩ := h
  rw [← hrun]
  exact chainInv_exec evs thumbStart ⟨by simp [thumbStart], fun _ => ⟨rfl, rfl⟩⟩

/-- Claim C8: in every reachable state of the thumbnail subsystem, the
number of scheduled chain continuations plus in-flight generations is
at most one, so generation is serialized across all paths (no two
generations ever run at once) and in particular at most one generation
is ever in flight for any single path: concurrent requests share the
single queue entry and its one outcome. -/
theorem thumb_single_flight (s : ThumbSys) (h : ThumbReachable s) :
    s.pendingNext + s.inFlightGen.length ≤ 1 ∧
    ∀ p, s.inFlightGen.count p ≤ 1 := by
  have hc := chainInv_reachable h
  refine ⟨hc.1, fun p => ?_⟩
  have h1 := hc.1
  calc s.inFlightGen.count p ≤ s.inFlightGen.length :=
        List.count_le_length p s.inFlightGen
    _ ≤ 1 := by omega

/-- Witness for C8 at a concrete reachable state: one file scanned,
its generation in flight. -/
theorem thumb_single_flight_witness :
    (thumbRun [ThumbEv.scan
        [⟨"a.jpg", "/dcim/a.jpg", 100, 0, "jpg", true, false⟩]]).1.pendingNext
      + (thumbRun [ThumbEv.scan
        [⟨"a.jpg", "/dcim/a.jpg", 100, 0, "jpg", true, false⟩]]).1.inFlightGen.length
      ≤ 1 :=
  (thumb_single_flight _ ⟨[ThumbEv.scan
      [⟨"a.jpg", "/dcim/a.jpg", 100, 0, "jpg", true, false⟩]], rfl⟩).1

/-! ### Soundness of the write trace against the claimed state machine -/

theorem applyWrites_append (m : List (String × ThumbState))
    (xs ys : List WriteEv) :
    applyWrites m (xs ++ ys) = applyWrites (applyWrites m xs) ys := by
  induction xs generalizing m with
  | nil => rfl
  | cons x xs ih =>
      cases x with
      | reset => simp [applyWrites, ih]
      | write p v => simp [applyWrites, ih]

theorem wfWrites_append (m : List (String × ThumbState))
    (xs ys : List WriteEv) :
    wfWrites m (xs ++ ys) =
      (wfWrites m xs && wfWrites (applyWrites m xs) ys) := by
  induction xs generalizing m with
  | nil => simp [wfWrites, applyWrites]
  | cons x xs ih =>
      cases x with
      | reset => simp [wfWrites, applyWrites, ih]
      | write p v => simp [wfWrites, applyWrites, ih, Bool.and_assoc]

/-- A map in which every entry that exists at all reads `pending`. -/
def allPendingDefault (m : List (String × ThumbState)) : Prop :=
  ∀ p, (alookup m p).getD .pending = .pending

theorem allPendingDefault_aset {m : List (String × ThumbState)}
    (hm : allPendingDefault m) (q : String) :
    allPendingDefault (aset m q .pending) := by
  intro p
  by_cases hp : p = q
  · subst hp
    rw [alookup_aset_self]
    rfl
  · rw [alookup_aset_other _ _ _ _ hp]
    exact hm p

theorem allPendingDefault_foldl (ps : List String)
    (m : List (String × ThumbState)) (hm : allPendingDefault m) :
    allPendingDefault (ps.foldl (fun m p => aset m p .pending) m) := by
  induction ps generalizing m with
  | nil => exact hm
  | cons q qs ih => exact ih _ (allPendingDefault_aset hm q)

theorem allPendingDefault_pendingMap (ps : List String) :
    allPendingDefault (pendingMap ps) :=
  allPendingDefault_foldl ps [] (fun _ => rfl)

theorem wfWrites_pending_writes (ps : List String)
    (m : List (String × ThumbState)) (hm : allPendingDefault m) :
    wfWrites m (ps.map (fun p => WriteEv.write p .pending)) = true := by
  induction ps generalizing m with
  | nil => rfl
  | cons q qs ih =>
      simp only [List.map_cons, wfWrites]
      rw [hm q]
      rw [show allowedMove .pending .pending = true from rfl, Bool.true_and]
      exact ih _ (allPendingDefault_aset hm q)

theorem applyWrites_pending_writes (ps : List String)
    (m : List (String × ThumbState)) :
    applyWrites m (ps.map (fun p => WriteEv.write p .pending)) =
      ps.foldl (fun m p => aset m p .pending) m := by
  induction ps generalizing m with
  | nil => rfl
  | cons q qs ih => simp [applyWrites, ih]

/-- What the queue discipline maintains: queued paths read `pending`,
in-flight paths read `loading`, and the queue holds each path at most
once. -/
def QueueInv (s : ThumbSys) : Prop :=
  (∀ p ∈ s.queue, thumbStateOf s p = .pending) ∧
  (∀ p ∈ s.inFlightGen, thumbStateOf s p = .loading) ∧
  s.queue.Nodup

theorem startChain_sound (s : ThumbSys) (hq : QueueInv s) :
    wfWrites s.states (startChain s).2 = true ∧
    applyWrites s.states (startChain s).2 = (startChain s).1.states ∧
    QueueInv (startChain s).1 := by
  obtain ⟨hqp, hfl, hnd⟩ := hq
  rw [startChain]
  by_cases hg : s.isGenerating = true
  · rw [if_pos hg]
    exact ⟨rfl, rfl, hqp, hfl, hnd⟩
  · rw [if_neg hg]
    cases hque : s.queue with
    | nil => exact ⟨rfl, rfl, hqp, hfl, hnd⟩
    | cons q rest =>
        rw [hque] at hqp hnd
        have hqpend : thumbStateOf s q = .pending := hqp q (by simp)
        dsimp only
        by_cases hct :
            cacheTruthy { s with isGenerating := true, queue := rest } q
              = true
        · rw [if_pos hct]
          refine ⟨rfl, rfl, ?_, ?_, List.Nodup.of_cons hnd⟩
          · intro p hp
            exact hqp p (by simp [hp])
          · intro p hp
            exact hfl p hp
        · rw [if_neg hct]
          have hqnotin : q ∉ rest := (List.nodup_cons.mp hnd).1
          refine ⟨?_, rfl, ?_, ?_, List.Nodup.of_cons hnd⟩
          · rw [show wfWrites s.states [WriteEv.write q .loading] =
                (allowedMove ((alookup s.states q).getD .pending) .loading
                  && true) from rfl]
            rw [show (alookup s.states q).getD .pending = .pending
                  from hqpend]
            rfl
          · intro p hp
            have hpq : p ≠ q := fun hpq => hqnotin (hpq ▸ hp)
            rw [thumbStateOf]
            dsimp only
            rw [alookup_aset_other _ _ _ _ hpq]
            exact hqp p (by simp [hp])
          · intro p hp
            rcases List.mem_cons.mp hp with rfl | hp2
            · rw [thumbStateOf]
              dsimp only
              rw [alookup_aset_self]
              rfl
            · have hpq : p ≠ q := by
                intro hpq
                have := hfl p hp2
                rw [hpq, hqpend] at this
                cases this
              rw [thumbStateOf]
              dsimp only
              rw [alookup_aset_other _ _ _ _ hpq]
              exact hfl p hp2

/-- The side conditions of the amended claim C5: a scan is issued only
while no generation is in flight, and scanned paths are distinct. -/
def scanEvOk : ThumbEv → ThumbSys → Prop
  | .scan files, s => s.inFlightGen = [] ∧ (scanPaths files).Nodup
  | _, _ => True

theorem thumbStep_writes_sound (s : ThumbSys) (e : ThumbEv)
    (hc : ChainInv s) (hq : QueueInv s) (he : scanEvOk e s) :
    wfWrites s.states (thumbStep s e).2 = true ∧
    applyWrites s.states (thumbStep s e).2 = (thumbStep s e).1.states ∧
    QueueInv (thumbStep s e).1 := by
  obtain ⟨hqp, hfl, hnd⟩ := hq
  cases e with
  | scan files =>
      obtain ⟨hifl, hndp⟩ := he
      have hq1 : QueueInv (resetSys s files) := by
        refine ⟨?_, ?_, hndp⟩
        · intro p _
          exact allPendingDefault_pendingMap (scanPaths files) p
        · intro p hp
          have hp2 : p ∈ s.inFlightGen := hp
          rw [hifl] at hp2
          cases hp2
      have hsc := startChain_sound _ hq1
      rw [thumbStep, thumbScan]
      dsimp only
      refine ⟨?_, ?_, hsc.2.2⟩
      · rw [List.cons_append, wfWrites, wfWrites_append]
        rw [applyWrites_pending_writes]
        rw [wfWrites_pending_writes (scanPaths files) [] (fun _ => rfl)]
        rw [Bool.true_and]
        exact hsc.1
      · rw [List.cons_append, applyWrites, applyWrites_append]
        rw [applyWrites_pending_writes]
        exact hsc.2.1
  | runNext =>
      rw [thumbStep, thumbRunNext]
      by_cases hp : s.pendingNext = 0
      · rw [if_pos hp]
        exact ⟨rfl, rfl, hqp, hfl, hnd⟩
      · rw [if_neg hp]
        have hflight : s.inFlightGen = [] := by
          cases hf : s.inFlightGen with
          | nil => rfl
          | cons a t =>
              exfalso
              have h1 := hc.1
              rw [hf] at h1
              simp at h1
              omega
        dsimp only
        cases hque : s.queue with
        | nil =>
            refine ⟨rfl, rfl, ?_, ?_, by simp⟩
            · intro p hp2
              cases hp2
            · intro p hp2
              have hp3 : p ∈ s.inFlightGen := hp2
              rw [hflight] at hp3
              cases hp3
        | cons q rest =>
            rw [hque] at hqp hnd
            have hqpend : thumbStateOf s q = .pending := hqp q (by simp)
            have hqnotin : q ∉ rest := (List.nodup_cons.mp hnd).1
            dsimp only
            by_cases hct : cacheTruthy { s with
                pendingNext := s.pendingNext - 1, queue := rest } q = true
            · rw [if_pos hct]
              refine ⟨rfl, rfl, ?_, ?_, List.Nodup.of_cons hnd⟩
              · intro p hp2
                exact hqp p (by simp [hp2])
              · intro p hp2
                have hp3 : p ∈ s.inFlightGen := hp2
                rw [hflight] at hp3
                cases hp3
            · rw [if_neg hct]
              refine ⟨?_, rfl, ?_, ?_, List.Nodup.of_cons hnd⟩
              · rw [show wfWrites s.states [WriteEv.write q .loading] =
                    (allowedMove ((alookup s.states q).getD .pending)
                      .loading && true) from rfl]
                rw [show (alookup s.states q).getD .pending = .pending
                      from hqpend]
                rfl
              · intro p hp2
                have hpq : p ≠ q := fun hpq => hqnotin (hpq ▸ hp2)
                rw [thumbStateOf]
                dsimp only
                rw [alookup_aset_other _ _ _ _ hpq]
                exact hqp p (by simp [hp2])
              · intro p hp2
                have hp3 : p ∈ q :: s.inFlightGen := hp2
                rw [hflight] at hp3
                rcases List.mem_cons.mp hp3 with rfl | hp4
                · rw [thumbStateOf]
                  dsimp only
                  rw [alookup_aset_self]
                  rfl
                · cases hp4
  | finish r =>
      rw [thumbStep, thumbFinish]
      cases hf : s.inFlightGen with
      | nil => exact ⟨rfl, rfl, hqp, hfl, hnd⟩
      | cons q rest =>
          rw [hf] at hfl
          have hqload : thumbStateOf s q = .loading := hfl q (by simp)
          have hrest : rest = [] := by
            have h1 := hc.1
            rw [hf] at h1
            cases rest with
            | nil => rfl
            | cons a t =>
                exfalso
                simp at h1
                omega
          have hqueue_ne : ∀ p ∈ s.queue, p ≠ q := by
            intro p hp2 hpq
            have := hqp p hp2
            rw [hpq, hqload] at this
            cases this
          cases r with
          | ok payload =>
              refine ⟨?_, rfl, ?_, ?_, hnd⟩
              · rw [show wfWrites s.states [WriteEv.write q .loaded] =
                    (allowedMove ((alookup s.states q).getD .pending)
                      .loaded && true) from rfl]
                rw [show (alookup s.states q).getD .pending = .loading
                      from hqload]
                rfl
              · intro p hp2
                rw [thumbStateOf]
                dsimp only
                rw [alookup_aset_other _ _ _ _ (hqueue_ne p hp2)]
                exact hqp p hp2
              · intro p hp2
                have hp3 : p ∈ rest := hp2
                rw [hrest] at hp3
                cases hp3
          | err msg =>
              refine ⟨?_, rfl, ?_, ?_, hnd⟩
              · rw [show wfWrites s.states [WriteEv.write q .error] =
                    (allowedMove ((alookup s.states q).getD .pending)
                      .error && true) from rfl]
                rw [show (alookup s.states q).getD .pending = .loading
                      from hqload]
                rfl
              · intro p hp2
                rw [thumbStateOf]
                dsimp only
                rw [alookup_aset_other _ _ _ _ (hqueue_ne p hp2)]
                exact hqp p hp2
              · intro p hp2
                have hp3 : p ∈ rest := hp2
                rw [hrest] at hp3
                cases hp3
  | request p r =>
      obtain ⟨hst, hqu, _, _, hifl⟩ := getThumbStep_skeleton s p r
      rw [thumbStep]
      refine ⟨rfl, hst.symm, ?_, ?_, ?_⟩
      · intro p2 hp2
        rw [hqu] at hp2
        rw [thumbStateOf, hst]
        exact hqp p2 hp2
      · intro p2 hp2
        rw [hifl] at hp2
        rw [thumbStateOf, hst]
        exact hfl p2 hp2
      · rw [hqu]
        exact hnd

/-- Decidable form of the amended claim's side condition along a
trace: every scan happens while no generation is in flight, and every
scan's media paths are distinct. -/
def scanEvOkB : ThumbEv → ThumbSys → Bool
  | .scan files, s =>
      s.inFlightGen.isEmpty && decide (scanPaths files).Nodup
  | _, _ => true

def scanIdleOk : ThumbSys → List ThumbEv → Bool
  | _, [] => true
  | s, e :: es => scanEvOkB e s && scanIdleOk (thumbStep s e).1 es

theorem thumbWrites_wf_aux (evs : List ThumbEv) (s : ThumbSys)
    (hc : ChainInv s) (hq : QueueInv s)
    (hok : scanIdleOk s evs = true) :
    wfWrites s.states (thumbExec s evs).2 = true := by
  induction evs generalizing s with
  | nil => rfl
  | cons e es ih =>
      rw [scanIdleOk, Bool.and_eq_true] at hok
      obtain ⟨hok1, hok2⟩ := hok
      have he : scanEvOk e s := by
        cases e with
        | scan files =>
            rw [scanEvOkB, Bool.and_eq_true] at hok1
            exact ⟨List.isEmpty_iff.mp hok1.1, of_decide_eq_true hok1.2⟩
        | runNext => trivial
        | finish r => trivial
        | request p r => trivial
      have hs := thumbStep_writes_sound s e hc hq he
      rw [thumbExec]
      dsimp only
      rw [wfWrites_append, hs.1, Bool.true_and, hs.2.1]
      exact ih (thumbStep s e).1 (chainInv_step s e hc) hs.2.2 hok2

/-- Claim C5 exactly as stated: in every run of the thumbnail
subsystem, the write trace of the per-path state map respects the
machine pending, loading, loaded or error — every assignment either
keeps the entry's value or moves it one step along the chain, and
entries revisit pending only through the full reset of a new scan. -/
def c5AsStated : Prop :=
  ∀ evs : List ThumbEv, wfWrites [] (thumbRun evs).2 = true

/-- Claim C5 is refuted by a scan issued while a generation is in
flight: the stale completion writes `loaded` into the freshly reset
map, moving that path from pending straight to loaded. -/
theorem c5AsStated_false : ¬ c5AsStated := by
  intro h
  have := h [ThumbEv.scan [⟨"a.jpg", "/dcim/a.jpg", 100, 0, "jpg",
      true, false⟩],
    ThumbEv.scan [⟨"a.jpg", "/dcim/a.jpg", 100, 0, "jpg", true, false⟩],
    ThumbEv.finish (ThumbResult.ok "data:x")]
  exact absurd this (by decide)

/-- Claim C5 as amended: provided every scan is issued while no
generation is in flight (and scans yield distinct paths), the state of
every path only ever moves along pending, loading, loaded or error;
loaded and error entries are changed only by the full reset of a new
scan, which returns every path to pending. -/
theorem thumbStates_follow_machine (evs : List ThumbEv)
    (hok : scanIdleOk thumbStart evs = true) :
    wfWrites [] (thumbRun evs).2 = true :=
  thumbWrites_wf_aux evs thumbStart
    ⟨by simp [thumbStart], fun _ => ⟨rfl, rfl⟩⟩
    ⟨fun p hp => absurd hp (by simp [thumbStart]),
     fun p hp => absurd hp (by simp [thumbStart]),
     by simp [thumbStart]⟩
    hok

/-- Witness for the amended C5: a full well-behaved run — scan, a
successful generation, a failed one, chain shutdown. -/
theorem thumbStates_follow_machine_witness :
    wfWrites [] (thumbRun
      [ThumbEv.scan
          [⟨"a.jpg", "/dcim/a.jpg", 100, 0, "jpg", true, false⟩,
           ⟨"b.mp4", "/dcim/b.mp4", 2000, 0, "mp4", false, true⟩],
       ThumbEv.finish (ThumbResult.ok "data:image/jpeg;base64,q"),
       ThumbEv.runNext,
       ThumbEv.finish (ThumbResult.err "unsupported codec"),
       ThumbEv.runNext]).2 = true :=
  thumbStates_follow_machine _ (by decide)

/-- Claim C7: when the in-flight generation for a path fails, that
path's entry is set to `error` (the handler is a total function, so
nothing crashes), while every other path's state and cache entry, and
the whole queue, are untouched, and the chain schedules the next
continuation — processing continues with the next queued path. -/
theorem thumbFinish_error_isolated (s : ThumbSys) (q : String)
    (rest : List String) (msg : String) (h : s.inFlightGen = q :: rest) :
    thumbStateOf (thumbFinish s (.err msg)).1 q = .error ∧
    (∀ p, p ≠ q →
      thumbStateOf (thumbFinish s (.err msg)).1 p = thumbStateOf s p) ∧
    (thumbFinish s (.err msg)).1.cache = s.cache ∧
    (thumbFinish s (.err msg)).1.queue = s.queue ∧
    (thumbFinish s (.err msg)).1.pendingNext = s.pendingNext + 1 := by
  rw [thumbFinish, h]
  dsimp only
  refine ⟨?_, ?_, rfl, rfl, rfl⟩
  · rw [thumbStateOf]
    dsimp only
    rw [alookup_aset_self]
    rfl
  · intro p hp
    rw [thumbStateOf, thumbStateOf]
    dsimp only
    rw [alookup_aset_other _ _ _ _ hp]

/-- Witness for C7: a corrupted file's generation fails while another
path waits in the queue; the failed path reads `error`, the queued
path is untouched. -/
theorem thumbFinish_error_isolated_witness :
    thumbStateOf (thumbFinish
        ⟨[], [("/dcim/bad.jpg", .loading), ("/dcim/ok.jpg", .pending)],
         ["/dcim/ok.jpg"], true, 0, ["/dcim/bad.jpg"], 1⟩
        (.err "corrupt file")).1 "/dcim/bad.jpg" = .error ∧
    thumbStateOf (thumbFinish
        ⟨[], [("/dcim/bad.jpg", .loading), ("/dcim/ok.jpg", .pending)],
         ["/dcim/ok.jpg"], true, 0, ["/dcim/bad.jpg"], 1⟩
        (.err "corrupt file")).1 "/dcim/ok.jpg"
      = thumbStateOf
        ⟨[], [("/dcim/bad.jpg", .loading), ("/dcim/ok.jpg", .pending)],
         ["/dcim/ok.jpg"], true, 0, ["/dcim/bad.jpg"], 1⟩ "/dcim/ok.jpg" :=
  ⟨(thumbFinish_error_isolated _ "/dcim/bad.jpg" [] "corrupt file" rfl).1,
   (thumbFinish_error_isolated _ "/dcim/bad.jpg" [] "corrupt file"
      rfl).2.1 "/dcim/ok.jpg" (by decide)⟩

/-- Claim C6: a successful generation stores its payload in the cache
under the generated path, and as long as that entry is present (it is
cleared only by the next scan), any `getThumbnail` call for the path
returns exactly the stored payload and leaves the whole state —
including the backend invocation count — unchanged: a pure cache hit.
The payload of a successful generation is a data URI, hence nonempty,
which is what the JavaScript truthiness test of the cache relies on. -/
theorem getThumbnail_cache_hit (s : ThumbSys) (q : String)
    (rest : List String) (payload : String) (r : ThumbResult)
    (hq : s.inFlightGen = q :: rest) (hne : payload ≠ "") :
    alookup (thumbFinish s (.ok payload)).1.cache q = some payload ∧
    ∀ s2 : ThumbSys, alookup s2.cache q = some payload →
      getThumbStep s2 q r = (s2, payload) := by
  constructor
  · rw [thumbFinish, hq]
    dsimp only
    exact alookup_aset_self _ _ _
  · intro s2 h2
    have hbne : (payload != "") = true := by
      simp [hne]
    rw [getThumbStep, h2]
    dsimp only
    rw [if_pos hbne]

/-- Witness for C6: after a successful generation of a data URI, a
`getThumbnail` call (whose backend result would even be an error) is a
pure cache hit. -/
theorem getThumbnail_cache_hit_witness :
    alookup (thumbFinish
        ⟨[], [("/dcim/a.jpg", .loading)], [], true, 0, ["/dcim/a.jpg"], 1⟩
        (.ok "data:image/jpeg;base64,q")).1.cache "/dcim/a.jpg"
      = some "data:image/jpeg;base64,q" ∧
    getThumbStep
        ⟨[("/dcim/a.jpg", "data:image/jpeg;base64,q")], [], [], false, 0,
         [], 1⟩ "/dcim/a.jpg" (.err "never invoked")
      = (⟨[("/dcim/a.jpg", "data:image/jpeg;base64,q")], [], [], false, 0,
          [], 1⟩, "data:image/jpeg;base64,q") :=
  ⟨(getThumbnail_cache_hit _ "/dcim/a.jpg" [] "data:image/jpeg;base64,q"
      (.err "never invoked") rfl (by decide)).1,
   (getThumbnail_cache_hit
      ⟨[], [("/dcim/a.jpg", .loading)], [], true, 0, ["/dcim/a.jpg"], 1⟩
      "/dcim/a.jpg" [] "data:image/jpeg;base64,q"
      (.err "never invoked") rfl (by decide)).2 _ (by decide)⟩

/-- Claim C9 exactly as stated, at its particular case: a failing
`getThumbnail` request yields some observable error outcome — a
non-empty (hence non-success) return value, an `error` state for the
path, or a cache entry — rather than an empty success value. -/
def c9AsStated : Prop :=
  ∀ (s : ThumbSys) (p msg : String),
    alookup s.cache p = none →
    ((getThumbStep s p (.err msg)).2 ≠ "" ∨
     thumbStateOf (getThumbStep s p (.err msg)).1 p = .error ∨
     alookup (getThumbStep s p (.err msg)).1.cache p ≠ none)

/-- Claim C9 is refuted by `getThumbnail` itself: on a backend
failure it logs, returns the empty string — exactly the empty success
value the claim rules out — and records no error state and no cache
entry. -/
theorem c9AsStated_false : ¬ c9AsStated := by
  intro h
  rcases h thumbStart "/dcim/a.jpg" "decode failed" rfl with h1 | h2 | h3
  · exact h1 (by decide)
  · exact absurd h2 (by decide)
  · exact h3 (by decide)

/-- Claim C9 as amended: the queue-driven generation path does record
every failure as an observable `error` state, but the (uncalled)
`getThumbnail` helper is an exception: on failure it returns the empty
string to its caller and records nothing beyond a console log. -/
theorem thumb_errors_recorded (s : ThumbSys) (q : String)
    (rest : List String) (msg : String) (h : s.inFlightGen = q :: rest) :
    thumbStateOf (thumbFinish s (.err msg)).1 q = .error ∧
    ∀ (s2 : ThumbSys) (p msg2 : String), alookup s2.cache p = none →
      getThumbStep s2 p (.err msg2) =
        ({ s2 with invocations := s2.invocations + 1 }, "") := by
  constructor
  · rw [thumbFinish, h]
    dsimp only
    rw [thumbStateOf]
    dsimp only
    rw [alookup_aset_self]
    rfl
  · intro s2 p msg2 h2
    rw [getThumbStep, h2]
    rfl

/-- Witness for the amended C9 at concrete states. -/
theorem thumb_errors_recorded_witness :
    thumbStateOf (thumbFinish
        ⟨[], [("/dcim/bad.jpg", .loading)], [], true, 0,
         ["/dcim/bad.jpg"], 1⟩ (.err "decode failed")).1 "/dcim/bad.jpg"
      = .error ∧
    getThumbStep thumbStart "/dcim/z.jpg" (.err "decode failed")
      = (⟨[], [], [], false, 0, [], 1⟩, "") :=
  ⟨(thumb_errors_recorded _ "/dcim/bad.jpg" [] "decode failed" rfl).1,
   (thumb_errors_recorded
      ⟨[], [("/dcim/bad.jpg", .loading)], [], true, 0, ["/dcim/bad.jpg"], 1⟩
      "/dcim/bad.jpg" [] "decode failed" rfl).2 thumbStart "/dcim/z.jpg"
     "decode failed" rfl⟩

end CamPorter
